import Mathlib

/-!
Verification of the LSB-steganography codec in `steganography.py`.

The embedding is byte- and codepoint-level:
* a Python `str` is a `List Nat` of Unicode code points;
* a Python `bytes` value is a `List Nat` whose members are `< 256`;
* an RGB image is its size together with the flattened list of channel
  values (the code flattens `(r,g,b)` pixel tuples into one sequence and
  regroups them on write; the two representations are in bijection, so we
  carry the flattened form);
* `str.encode("utf-8")` / `bytes.decode("utf-8")` are modelled by an
  explicit UTF-8 encoder and a strict UTF-8 decoder (CPython rejects
  overlong forms, surrogates and code points above `0x10FFFF`);
  `bytes.decode("latin-1")` maps each byte to the code point of the same
  value.
-/

namespace Stego

/-- `DELIMITER = "<<END>>"`, as its list of code points (all ASCII, so its
UTF-8 bytes are the same list). -/
def DELIM : List Nat := [60, 60, 69, 78, 68, 62, 62]

/-- UTF-8 encoding of a single code point (the standard 1-4 byte forms,
written with `/`, `%`, `*` instead of bit operations). -/
def utf8EncodeChar (c : Nat) : List Nat :=
  if c < 0x80 then [c]
  else if c < 0x800 then [0xC0 + c / 64, 0x80 + c % 64]
  else if c < 0x10000 then
    [0xE0 + c / 4096, 0x80 + c / 64 % 64, 0x80 + c % 64]
  else
    [0xF0 + c / 262144, 0x80 + c / 4096 % 64, 0x80 + c / 64 % 64, 0x80 + c % 64]

/-- `text.encode("utf-8")` on a list of code points. -/
def utf8Encode : List Nat → List Nat
  | [] => []
  | c :: cs => utf8EncodeChar c ++ utf8Encode cs

/-- Strict UTF-8 decoding, as performed by CPython's `bytes.decode("utf-8")`:
rejects bad lead bytes (`0x80`-`0xC1`, `0xF5`-`0xFF`), bad continuation
bytes, overlong encodings, surrogates and values above `0x10FFFF`.
Returns `none` exactly when CPython raises `UnicodeDecodeError`. -/
def utf8Decode : List Nat → Option (List Nat)
  | [] => some []
  | b :: rest =>
    if b < 0x80 then
      match utf8Decode rest with
      | some s => some (b :: s)
      | none => none
    else if b < 0xC2 then none
    else if b < 0xE0 then
      match rest with
      | b1 :: rest1 =>
        if 0x80 ≤ b1 ∧ b1 < 0xC0 then
          match utf8Decode rest1 with
          | some s => some (((b - 0xC0) * 64 + (b1 - 0x80)) :: s)
          | none => none
        else none
      | [] => none
    else if b < 0xF0 then
      match rest with
      | b1 :: b2 :: rest2 =>
        if 0x80 ≤ b1 ∧ b1 < 0xC0 ∧ 0x80 ≤ b2 ∧ b2 < 0xC0 ∧
            0x800 ≤ (b - 0xE0) * 4096 + (b1 - 0x80) * 64 + (b2 - 0x80) ∧
            ((b - 0xE0) * 4096 + (b1 - 0x80) * 64 + (b2 - 0x80) < 0xD800 ∨
              0xE000 ≤ (b - 0xE0) * 4096 + (b1 - 0x80) * 64 + (b2 - 0x80)) then
          match utf8Decode rest2 with
          | some s => some (((b - 0xE0) * 4096 + (b1 - 0x80) * 64 + (b2 - 0x80)) :: s)
          | none => none
        else none
      | _ => none
    else if b < 0xF5 then
      match rest with
      | b1 :: b2 :: b3 :: rest3 =>
        if 0x80 ≤ b1 ∧ b1 < 0xC0 ∧ 0x80 ≤ b2 ∧ b2 < 0xC0 ∧ 0x80 ≤ b3 ∧ b3 < 0xC0 ∧
            0x10000 ≤ (b - 0xF0) * 262144 + (b1 - 0x80) * 4096 + (b2 - 0x80) * 64 + (b3 - 0x80) ∧
            (b - 0xF0) * 262144 + (b1 - 0x80) * 4096 + (b2 - 0x80) * 64 + (b3 - 0x80) ≤ 0x10FFFF then
          match utf8Decode rest3 with
          | some s =>
            some (((b - 0xF0) * 262144 + (b1 - 0x80) * 4096 + (b2 - 0x80) * 64 + (b3 - 0x80)) :: s)
          | none => none
        else none
      | _ => none
    else none

/-- The 8 bits of one byte, most-significant first: the inner loop
`for i in range(7, -1, -1): bits.append((byte >> i) & 1)`. -/
def byteBits (b : Nat) : List Nat :=
  [b / 128 % 2, b / 64 % 2, b / 32 % 2, b / 16 % 2, b / 8 % 2, b / 4 % 2, b / 2 % 2, b % 2]

/-- Expansion of a byte sequence into its bit stream (the loop in
`encode_message` lines 67-69, and the body of `_text_to_bits`). -/
def bitsOfBytes : List Nat → List Nat
  | [] => []
  | b :: bs => byteBits b ++ bitsOfBytes bs

/-- `_text_to_bits(text)`: UTF-8 encode, then expand each byte MSB-first. -/
def text_to_bits (text : List Nat) : List Nat :=
  bitsOfBytes (utf8Encode text)

/-- `_bits_to_text(bits)`: take the bits eight at a time
(`for i in range(0, len(bits), 8)`), stop at a trailing group of fewer than
eight bits, rebuild each byte by `byte = (byte << 1) | bit`, and emit
`chr(byte)` for each byte.  The result is the list of code points of the
returned string. -/
def bits_to_text (bits : List Nat) : List Nat :=
  if 8 ≤ bits.length then
    (bits.take 8).foldl (fun byte bit => byte * 2 + bit) 0 :: bits_to_text (bits.drop 8)
  else []
termination_by bits.length
decreasing_by simp [List.length_drop]; omega

/-- Regrouping of a bit stream into bytes, eight bits MSB-first per byte,
dropping a trailing group of fewer than eight bits.  This is the byte
accumulation loop of `decode_message` (lines 137-145): the running
`buffer` fills up to eight bits and `byte = (byte << 1) | b` recombines
them. -/
def bytesOfBits : List Nat → List Nat
  | b0 :: b1 :: b2 :: b3 :: b4 :: b5 :: b6 :: b7 :: rest =>
    (b0 * 128 + b1 * 64 + b2 * 32 + b3 * 16 + b4 * 8 + b5 * 4 + b6 * 2 + b7) :: bytesOfBits rest
  | _ => []

/-- `ApplyShift` of the spec (§4.2), exactly the code of `encode_message`
lines 59-61: if the password is empty the bytes are unchanged, otherwise
`shift = sum(ord(c) for c in password) % 256` and each byte `b` becomes
`(b + shift) % 256`. -/
def applyShift (bs : List Nat) (password : List Nat) : List Nat :=
  if password = [] then bs
  else bs.map (fun b => (b + password.sum % 256) % 256)

/-- `ReverseShift` of the spec (§4.2), exactly the code of `decode_message`
lines 161-163: same shift, each byte `b` becomes `(b - shift) % 256`
(Python's nonnegative remainder, written on `Nat` as
`(b + 256 - shift) % 256`, which agrees for `b < 256`). -/
def reverseShift (bs : List Nat) (password : List Nat) : List Nat :=
  if password = [] then bs
  else bs.map (fun b => (b + 256 - password.sum % 256) % 256)

/-- An RGB image after `Image.open(...).convert("RGB")`: its size and the
flattened channel sequence `[channel for pixel in pixels for channel in pixel]`. -/
structure Img where
  width : Nat
  height : Nat
  channels : List Nat
deriving DecidableEq, Repr

/-- Well-formedness of a decoded RGB image: three channel values per pixel,
each an 8-bit value. -/
def Img.WF (img : Img) : Prop :=
  img.channels.length = img.width * img.height * 3 ∧ ∀ c ∈ img.channels, c < 256

/-- Writing bit `i` of the stream into the least-significant bit of channel
`i`: the loop `flat_pixels[idx] = (flat_pixels[idx] & ~1) | bit`
(`(c & ~1) | bit = c / 2 * 2 + bit` for `bit < 2`). -/
def embedBits : List Nat → List Nat → List Nat
  | flat, [] => flat
  | [], _ :: _ => []
  | c :: flat, b :: bs => (c / 2 * 2 + b) :: embedBits flat bs

/-- The status message of an encode result, with the values interpolated
into the Python f-string kept as data: `tooLarge avail required` stands for
"Image can hold ≈`avail` chars but the message requires `required` chars"
(`avail = capacity_chars - len(DELIMITER)` is a Python `int` and may be
negative, hence `Int`). -/
inductive EncodeMsg
  | hidden
  | tooLarge (avail : Int) (required : Nat)
deriving DecidableEq, Repr

/-- The dict returned by `encode_message`, together with the written output
file: `output = some img` when `new_img.save(output_path)` ran with image
`img`, `none` when nothing was written. -/
structure EncodeResult where
  success : Bool
  msg : EncodeMsg
  capacity : Nat
  used : Nat
  output : Option Img
deriving DecidableEq, Repr

/-- `encode_message(image_path, message, output_path, password)` on an
already-opened image.  Follows the source line by line:
capacity from `width * height * 3`; optional byte shift from the password;
delimiter appended; bit expansion; capacity check (failure writes nothing);
LSB embedding and write-out of the new image. -/
def encode_message (img : Img) (message : List Nat) (password : List Nat) : EncodeResult :=
  let capacity_bits := img.width * img.height * 3
  let capacity_chars := capacity_bits / 8
  let payload_bytes :=
    if password = [] then utf8Encode message
    else (utf8Encode message).map (fun b => (b + password.sum % 256) % 256)
  let full_payload_bytes := payload_bytes ++ DELIM
  let bits := bitsOfBytes full_payload_bytes
  if capacity_bits < bits.length then
    { success := false
      msg := .tooLarge ((capacity_chars : Int) - (DELIM.length : Int)) full_payload_bytes.length
      capacity := capacity_chars
      used := full_payload_bytes.length
      output := none }
  else
    { success := true
      msg := .hidden
      capacity := capacity_chars
      used := full_payload_bytes.length
      output := some ⟨img.width, img.height, embedBits img.channels bits⟩ }

/-- The delimiter scan of `decode_message` (lines 137-151) after the bit
buffer has been regrouped into bytes: append each byte to the accumulated
`payload_bytes`; as soon as the last `len(delimiter_bytes)` bytes equal the
delimiter, return everything before them; if the bytes run out, report no
message. -/
def findPayload (acc : List Nat) : List Nat → Option (List Nat)
  | [] => none
  | b :: rest =>
    if 7 ≤ (acc ++ [b]).length ∧ (acc ++ [b]).drop ((acc ++ [b]).length - 7) = DELIM then
      some ((acc ++ [b]).take ((acc ++ [b]).length - 7))
    else findPayload (acc ++ [b]) rest

/-- The status message of a decode result. -/
inductive DecodeMsg
  | extracted
  | noMessage
deriving DecidableEq, Repr

/-- The dict returned by `decode_message`: `secret` is `none` for the
`"No hidden message found"` outcome, and otherwise the code points of the
recovered string. -/
structure DecodeResult where
  success : Bool
  msg : DecodeMsg
  secret : Option (List Nat)
deriving DecidableEq, Repr

/-- `decode_message(image_path, password)` on an already-opened image:
extract the least-significant bit of every channel value, scan for the
delimiter, optionally reverse the byte shift, decode as UTF-8 with a
Latin-1 fallback (`chr` of each byte).  Total by construction — the
Python function never lets an exception escape. -/
def decode_message (img : Img) (password : List Nat) : DecodeResult :=
  let raw_bits := img.channels.map (· % 2)
  match findPayload [] (bytesOfBits raw_bits) with
  | none => ⟨false, .noMessage, none⟩
  | some pb =>
    let pb' := if password = [] then pb
               else pb.map (fun b => (b + 256 - password.sum % 256) % 256)
    let payload :=
      match utf8Decode pb' with
      | some s => s
      | none => pb'
    ⟨true, .extracted, some payload⟩

/-- `image_capacity(image_path)` on an opened (not yet RGB-normalized)
image with `w*h` pixels and `bands` colour bands: usable characters are
`w*h*min(bands,3) // 8 - len(DELIMITER) - 10`, floored at zero
(`max(usable, 0)` on the Python `int`). -/
def image_capacity (w h bands : Nat) : Nat :=
  let capacity_bits := w * h * min bands 3
  let capacity_chars := capacity_bits / 8
  let usable : Int := (capacity_chars : Int) - (DELIM.length : Int) - 10
  (max usable 0).toNat

/-! ### Bit-level helper lemmas -/

theorem byteBits_lt_two {b x : Nat} (hx : x ∈ byteBits b) : x < 2 := by
  simp [byteBits] at hx
  rcases hx with h | h | h | h | h | h | h | h <;> omega

theorem byteBits_length (b : Nat) : (byteBits b).length = 8 := rfl

theorem bitsOfBytes_lt_two {bs : List Nat} {x : Nat} (hx : x ∈ bitsOfBytes bs) : x < 2 := by
  induction bs with
  | nil => simp [bitsOfBytes] at hx
  | cons b bs ih =>
    simp only [bitsOfBytes, List.mem_append] at hx
    rcases hx with h | h
    · exact byteBits_lt_two h
    · exact ih h

theorem bitsOfBytes_length (bs : List Nat) : (bitsOfBytes bs).length = 8 * bs.length := by
  induction bs with
  | nil => rfl
  | cons b bs ih => simp [bitsOfBytes, byteBits, ih]; omega

theorem bitsOfBytes_append (a b : List Nat) :
    bitsOfBytes (a ++ b) = bitsOfBytes a ++ bitsOfBytes b := by
  induction a with
  | nil => rfl
  | cons x a ih => simp [bitsOfBytes, ih]

theorem bytesOfBits_byte {b : Nat} (hb : b < 256) (r : List Nat) :
    bytesOfBits (byteBits b ++ r) = b :: bytesOfBits r := by
  show bytesOfBits (b / 128 % 2 :: b / 64 % 2 :: b / 32 % 2 :: b / 16 % 2 ::
    b / 8 % 2 :: b / 4 % 2 :: b / 2 % 2 :: b % 2 :: r) = b :: bytesOfBits r
  rw [bytesOfBits]
  congr 1
  omega

theorem bytesOfBits_bitsOfBytes {bs : List Nat} (h : ∀ b ∈ bs, b < 256) (t : List Nat) :
    bytesOfBits (bitsOfBytes bs ++ t) = bs ++ bytesOfBits t := by
  induction bs with
  | nil => rfl
  | cons b bs ih =>
    have hb : b < 256 := h b (by simp)
    rw [bitsOfBytes, List.append_assoc, bytesOfBits_byte hb, ih (fun x hx => h x (by simp [hx]))]
    rfl

theorem bytesOfBits_lt {bits : List Nat} (h : ∀ x ∈ bits, x < 2) :
    ∀ b ∈ bytesOfBits bits, b < 256 := by
  induction bits using bytesOfBits.induct with
  | case1 b0 b1 b2 b3 b4 b5 b6 b7 rest ih =>
    intro b hb
    rw [bytesOfBits] at hb
    rcases List.mem_cons.mp hb with h0 | h0
    · subst h0
      have := h b0 (by simp); have := h b1 (by simp); have := h b2 (by simp)
      have := h b3 (by simp); have := h b4 (by simp); have := h b5 (by simp)
      have := h b6 (by simp); have := h b7 (by simp)
      omega
    · exact ih (fun x hx => h x (by simp [hx])) b h0
  | case2 l h1 =>
    intro b hb
    rw [bytesOfBits] at hb
    · simp at hb
    · exact h1

/-! ### Embedding helper lemmas -/

theorem embedBits_length {flat bits : List Nat} (h : bits.length ≤ flat.length) :
    (embedBits flat bits).length = flat.length := by
  induction flat generalizing bits with
  | nil => cases bits with
    | nil => rfl
    | cons b bs => simp at h
  | cons c flat ih =>
    cases bits with
    | nil => rfl
    | cons b bs =>
      simp only [embedBits, List.length_cons]
      rw [ih (by simpa using h)]

theorem embedBits_lsb {flat bits : List Nat} (hb : ∀ x ∈ bits, x < 2)
    (h : bits.length ≤ flat.length) :
    (embedBits flat bits).map (· % 2) = bits ++ (flat.drop bits.length).map (· % 2) := by
  induction flat generalizing bits with
  | nil => cases bits with
    | nil => rfl
    | cons b bs => simp at h
  | cons c flat ih =>
    cases bits with
    | nil => rfl
    | cons b bs =>
      have hblt : b < 2 := hb b (by simp)
      simp only [embedBits, List.map_cons, List.length_cons, List.drop_succ_cons,
        List.cons_append]
      rw [ih (fun x hx => hb x (by simp [hx])) (by simpa using h)]
      congr 1
      omega

/-! ### Shift transform lemmas -/

theorem applyShift_length (bs p : List Nat) : (applyShift bs p).length = bs.length := by
  unfold applyShift
  split <;> simp

theorem reverseShift_length (bs p : List Nat) : (reverseShift bs p).length = bs.length := by
  unfold reverseShift
  split <;> simp

theorem reverseShift_applyShift {bs : List Nat} (p : List Nat) (hb : ∀ b ∈ bs, b < 256) :
    reverseShift (applyShift bs p) p = bs := by
  unfold applyShift reverseShift
  split
  · rfl
  · rw [List.map_map]
    conv_rhs => rw [← List.map_id bs]
    apply List.map_congr_left
    intro b hbs
    have := hb b hbs
    have hs : p.sum % 256 < 256 := Nat.mod_lt _ (by omega)
    simp only [Function.comp_apply, id_eq]
    omega

/-- With 8-bit bytes, the empty-password branch agrees with a shift by
`sum % 256`: the transform is always the pointwise map. -/
theorem applyShift_eq_map {bs : List Nat} (p : List Nat) (hb : ∀ b ∈ bs, b < 256) :
    applyShift bs p = bs.map (fun b => (b + p.sum % 256) % 256) := by
  unfold applyShift
  split
  · subst ‹p = []›
    conv_lhs => rw [← List.map_id bs]
    apply List.map_congr_left
    intro b hbs
    have := hb b hbs
    simp only [id_eq, List.sum_nil, Nat.zero_mod, Nat.add_zero]
    omega
  · rfl

theorem reverseShift_eq_map {bs : List Nat} (p : List Nat) (hb : ∀ b ∈ bs, b < 256) :
    reverseShift bs p = bs.map (fun b => (b + 256 - p.sum % 256) % 256) := by
  unfold reverseShift
  split
  · subst ‹p = []›
    conv_lhs => rw [← List.map_id bs]
    apply List.map_congr_left
    intro b hbs
    have := hb b hbs
    simp only [id_eq, List.sum_nil, Nat.zero_mod, Nat.sub_zero]
    omega
  · rfl

theorem applyShift_lt {bs : List Nat} (p : List Nat) (hb : ∀ b ∈ bs, b < 256) :
    ∀ b ∈ applyShift bs p, b < 256 := by
  unfold applyShift
  split
  · exact hb
  · intro b hbs
    simp only [List.mem_map] at hbs
    obtain ⟨a, _, rfl⟩ := hbs
    exact Nat.mod_lt _ (by omega)

/-! ### Delimiter scan:  characterisation of `findPayload` -/

/-- The delimiter occurs in `v` starting at byte offset `i`. -/
def delimAt (v : List Nat) (i : Nat) : Prop := (v.drop i).take 7 = DELIM

instance (v : List Nat) (i : Nat) : Decidable (delimAt v i) := by
  unfold delimAt; infer_instance

/-- Front-to-back scan for the first delimiter occurrence, returning the
prefix before it.  Proof-side reformulation of `findPayload`. -/
def firstSplit : List Nat → Option (List Nat)
  | [] => none
  | b :: rest =>
    if (b :: rest).take 7 = DELIM then some [] else (firstSplit rest).map (b :: ·)

theorem delimAt_length {v : List Nat} {i : Nat} (h : delimAt v i) : i + 7 ≤ v.length := by
  have hl := congrArg List.length h
  simp only [delimAt, DELIM, List.length_take, List.length_drop] at hl ⊢
  simp at hl
  omega

theorem delimAt_cons_succ {b : Nat} {v : List Nat} {i : Nat} :
    delimAt (b :: v) (i + 1) ↔ delimAt v i := by
  simp [delimAt]

theorem delimAt_append_left {v t : List Nat} {i : Nat} (h : i + 7 ≤ v.length) :
    delimAt (v ++ t) i ↔ delimAt v i := by
  unfold delimAt
  rw [List.drop_append_eq_append_drop, List.take_append_eq_append_take]
  have h1 : i - v.length = 0 := by omega
  have h2 : 7 - (v.drop i).length = 0 := by simp; omega
  have h3 : 7 - (v.length - i) = 0 := by omega
  simp [h1, h2, h3]

theorem firstSplit_none {v : List Nat} (h : ∀ i, ¬ delimAt v i) : firstSplit v = none := by
  induction v with
  | nil => rfl
  | cons b rest ih =>
    rw [firstSplit, if_neg (by exact h 0), ih (fun i => (delimAt_cons_succ).not.mp (h (i + 1)))]
    rfl

theorem firstSplit_some {s : List Nat} {i₀ : Nat} (h0 : delimAt s i₀)
    (hmin : ∀ i < i₀, ¬ delimAt s i) : firstSplit s = some (s.take i₀) := by
  induction s generalizing i₀ with
  | nil =>
    exfalso
    have := delimAt_length h0
    simp at this
  | cons b rest ih =>
    cases i₀ with
    | zero => rw [firstSplit, if_pos (show (b :: rest).take 7 = DELIM from h0)]; rfl
    | succ i' =>
      rw [firstSplit, if_neg (show ¬(b :: rest).take 7 = DELIM from hmin 0 (by omega)),
        ih (delimAt_cons_succ.mp h0)
          (fun i hi => (delimAt_cons_succ).not.mp (hmin (i + 1) (by omega)))]
      rfl

theorem findPayload_eq (bytes : List Nat) :
    ∀ acc, (∀ i, ¬ delimAt acc i) → findPayload acc bytes = firstSplit (acc ++ bytes) := by
  induction bytes with
  | nil =>
    intro acc hacc
    rw [findPayload, List.append_nil, firstSplit_none hacc]
  | cons b rest ih =>
    intro acc hacc
    rw [findPayload]
    have hlen : (acc ++ [b]).length = acc.length + 1 := by simp
    by_cases hc : 7 ≤ (acc ++ [b]).length ∧
        (acc ++ [b]).drop ((acc ++ [b]).length - 7) = DELIM
    · rw [if_pos hc]
      obtain ⟨h7, hdrop⟩ := hc
      set n := (acc ++ [b]).length with hn
      have hda : delimAt (acc ++ [b]) (n - 7) := by
        unfold delimAt
        rw [hdrop]
        have : DELIM.length = 7 := rfl
        exact List.take_of_length_le (by rw [this])
      have hmin : ∀ i < n - 7, ¬ delimAt (acc ++ [b]) i := by
        intro i hi hdai
        have hil := delimAt_length hdai
        have : i + 7 ≤ acc.length := by omega
        exact hacc i ((delimAt_append_left this).mp hdai)
      have hassoc : acc ++ b :: rest = (acc ++ [b]) ++ rest := by simp
      rw [hassoc]
      have hda' : delimAt ((acc ++ [b]) ++ rest) (n - 7) :=
        (delimAt_append_left (by omega)).mpr hda
      have hmin' : ∀ i < n - 7, ¬ delimAt ((acc ++ [b]) ++ rest) i := by
        intro i hi hdai
        exact hmin i hi ((delimAt_append_left (by omega)).mp hdai)
      rw [firstSplit_some hda' hmin']
      have h1 : n - 7 - acc.length = 0 := by omega
      have h2 : n - 7 - (acc.length + 1) = 0 := by omega
      simp [List.take_append_eq_append_take, h1, h2]
    · rw [if_neg hc]
      have hacc' : ∀ i, ¬ delimAt (acc ++ [b]) i := by
        intro i hdai
        have hil := delimAt_length hdai
        rw [hlen] at hil
        by_cases hi : i + 7 ≤ acc.length
        · exact hacc i ((delimAt_append_left hi).mp hdai)
        · have : i = (acc ++ [b]).length - 7 := by omega
          subst this
          exact hc ⟨by omega, by
            unfold delimAt at hdai
            rwa [List.take_of_length_le (by simp; omega)] at hdai⟩
      rw [ih (acc ++ [b]) hacc']
      congr 1
      simp

/-- The delimiter has no nontrivial border: a suffix of length `1 ≤ t ≤ 6`
never equals the prefix of the same length.  Hence a window overlapping the
end of the payload and the start of the appended delimiter never matches. -/
theorem delim_no_border {t : Nat} (h1 : 1 ≤ t) (h6 : t ≤ 6) :
    DELIM.drop (7 - t) ≠ DELIM.take t := by
  interval_cases t <;> decide

/-- A delimiter window straddling the boundary between `v` and an appended
`DELIM ++ t` cannot match strictly before the appended delimiter. -/
theorem no_straddle {v t : List Nat} {i : Nat} (hi : i < v.length)
    (hlt : v.length < i + 7) : ¬ delimAt (v ++ (DELIM ++ t)) i := by
  intro hda
  unfold delimAt at hda
  set k := v.length - i with hk
  have hk1 : 1 ≤ k := by omega
  have hk6 : k ≤ 6 := by omega
  have hlv : (v.drop i).length = k := by simp [hk]
  have hdi : (v ++ (DELIM ++ t)).drop i = v.drop i ++ (DELIM ++ t) := by
    rw [List.drop_append_eq_append_drop]
    have h0 : i - v.length = 0 := by omega
    simp [h0]
  rw [hdi, List.take_append_eq_append_take, hlv] at hda
  have hvk : (v.drop i).take 7 = v.drop i := List.take_of_length_le (by omega)
  rw [hvk, List.take_append_eq_append_take] at hda
  have hdl : DELIM.length = 7 := rfl
  have h7k : 7 - k - DELIM.length = 0 := by omega
  rw [h7k] at hda
  simp only [List.take_zero, List.append_nil] at hda
  -- hda : v.drop i ++ DELIM.take (7 - k) = DELIM
  have hdk := congrArg (List.drop k) hda
  rw [List.drop_append_eq_append_drop, hlv, Nat.sub_self, List.drop_zero,
    List.drop_eq_nil_of_le (le_of_eq hlv), List.nil_append] at hdk
  -- hdk : DELIM.take (7 - k) = DELIM.drop k
  have := delim_no_border (t := 7 - k) (by omega) (by omega)
  have h77 : 7 - (7 - k) = k := by omega
  rw [h77] at this
  exact this hdk.symm

theorem delimAt_of_bounded {v : List Nat} (h : ∀ i < v.length, ¬ delimAt v i) :
    ∀ i, ¬ delimAt v i := by
  intro i hda
  have := delimAt_length hda
  exact h i (by omega) hda

/-- The scan of `decode_message` on a byte stream that is a delimiter-free
payload `v`, then the delimiter, then anything: it finds exactly `v`. -/
theorem findPayload_finds {v t : List Nat} (hnd : ∀ i, ¬ delimAt v i) :
    findPayload [] (v ++ (DELIM ++ t)) = some v := by
  have hacc : ∀ i, ¬ delimAt ([] : List Nat) i := by
    intro i hda
    have := delimAt_length hda
    simp at this
  rw [findPayload_eq _ [] hacc, List.nil_append]
  have hda : delimAt (v ++ (DELIM ++ t)) v.length := by
    unfold delimAt
    rw [List.drop_append_eq_append_drop, List.drop_eq_nil_of_le (le_refl _), Nat.sub_self,
      List.drop_zero, List.nil_append, List.take_append_eq_append_take]
    simp [DELIM]
  have hmin : ∀ i < v.length, ¬ delimAt (v ++ (DELIM ++ t)) i := by
    intro i hi
    by_cases h7 : i + 7 ≤ v.length
    · intro hda'
      exact hnd i ((delimAt_append_left h7).mp hda')
    · exact no_straddle hi (by omega)
  rw [firstSplit_some hda hmin, List.take_left]

/-! ### UTF-8 lemmas -/

/-- A Unicode scalar value: what CPython will actually encode
(`str.encode("utf-8")` raises on surrogates). -/
def ValidChar (c : Nat) : Prop := c < 0xD800 ∨ (0xE000 ≤ c ∧ c < 0x110000)

instance (c : Nat) : Decidable (ValidChar c) := by unfold ValidChar; infer_instance

theorem utf8EncodeChar_lt {c : Nat} (hc : c < 0x110000) : ∀ b ∈ utf8EncodeChar c, b < 256 := by
  unfold utf8EncodeChar
  split_ifs with h1 h2 h3 <;> intro b hb <;> simp at hb
  · omega
  · have : c / 64 < 32 := by omega
    omega
  · have h4 : c / 4096 < 16 := by omega
    have h5 : c / 64 % 64 < 64 := Nat.mod_lt _ (by omega)
    omega
  · have h4 : c / 262144 < 5 := by omega
    have h5 : c / 4096 % 64 < 64 := Nat.mod_lt _ (by omega)
    have h6 : c / 64 % 64 < 64 := Nat.mod_lt _ (by omega)
    omega

theorem utf8Encode_lt {m : List Nat} (hm : ∀ c ∈ m, c < 0x110000) :
    ∀ b ∈ utf8Encode m, b < 256 := by
  induction m with
  | nil => simp [utf8Encode]
  | cons c cs ih =>
    intro b hb
    rw [utf8Encode] at hb
    rcases List.mem_append.mp hb with h | h
    · exact utf8EncodeChar_lt (hm c (by simp)) b h
    · exact ih (fun x hx => hm x (by simp [hx])) b h

theorem utf8EncodeChar_ne_nil (c : Nat) : utf8EncodeChar c ≠ [] := by
  unfold utf8EncodeChar
  split_ifs <;> simp

theorem utf8Encode_length_ge (m : List Nat) : m.length ≤ (utf8Encode m).length := by
  induction m with
  | nil => simp [utf8Encode]
  | cons c cs ih =>
    rw [utf8Encode, List.length_append]
    have h1 : 1 ≤ (utf8EncodeChar c).length :=
      List.length_pos.mpr (utf8EncodeChar_ne_nil c)
    simp only [List.length_cons]
    omega

theorem utf8Encode_ascii {m : List Nat} (h : ∀ c ∈ m, c < 0x80) : utf8Encode m = m := by
  induction m with
  | nil => rfl
  | cons c cs ih =>
    rw [utf8Encode, utf8EncodeChar, if_pos (h c (by simp)),
      ih (fun x hx => h x (by simp [hx]))]
    rfl

theorem utf8Encode_length_eq {m : List Nat} (h : (utf8Encode m).length = m.length) :
    ∀ c ∈ m, c < 0x80 := by
  induction m with
  | nil => simp
  | cons c cs ih =>
    have hlen : (utf8Encode (c :: cs)).length =
        (utf8EncodeChar c).length + (utf8Encode cs).length := by
      rw [utf8Encode, List.length_append]
    have hc1 : 1 ≤ (utf8EncodeChar c).length :=
      List.length_pos.mpr (utf8EncodeChar_ne_nil c)
    have hcs := utf8Encode_length_ge cs
    simp only [List.length_cons] at h
    have hch : (utf8EncodeChar c).length = 1 ∧ (utf8Encode cs).length = cs.length := by omega
    intro x hx
    rcases List.mem_cons.mp hx with rfl | hx
    · by_contra hge
      have : 2 ≤ (utf8EncodeChar x).length := by
        unfold utf8EncodeChar
        split_ifs <;> simp
      omega
    · exact ih hch.2 x hx

/-! Definitional unfolding of `utf8Decode` at each list shape (every list is
one of these five shapes, so these equations cover all inputs). -/

theorem utf8Decode_eq_nil : utf8Decode [] = some [] := rfl

theorem utf8Decode_eq_one (b : Nat) :
    utf8Decode [b] =
      (if b < 0x80 then some [b]
       else if b < 0xC2 then none
       else if b < 0xE0 then none
       else if b < 0xF0 then none
       else if b < 0xF5 then none
       else none) := rfl

theorem utf8Decode_eq_two (b b1 : Nat) :
    utf8Decode [b, b1] =
      (if b < 0x80 then
        match utf8Decode [b1] with
        | some s => some (b :: s)
        | none => none
       else if b < 0xC2 then none
       else if b < 0xE0 then
         (if 0x80 ≤ b1 ∧ b1 < 0xC0 then some [(b - 0xC0) * 64 + (b1 - 0x80)] else none)
       else if b < 0xF0 then none
       else if b < 0xF5 then none
       else none) := rfl

theorem utf8Decode_eq_three (b b1 b2 : Nat) :
    utf8Decode [b, b1, b2] =
      (if b < 0x80 then
        match utf8Decode [b1, b2] with
        | some s => some (b :: s)
        | none => none
       else if b < 0xC2 then none
       else if b < 0xE0 then
         (if 0x80 ≤ b1 ∧ b1 < 0xC0 then
           match utf8Decode [b2] with
           | some s => some (((b - 0xC0) * 64 + (b1 - 0x80)) :: s)
           | none => none
         else none)
       else if b < 0xF0 then
         (if 0x80 ≤ b1 ∧ b1 < 0xC0 ∧ 0x80 ≤ b2 ∧ b2 < 0xC0 ∧
             0x800 ≤ (b - 0xE0) * 4096 + (b1 - 0x80) * 64 + (b2 - 0x80) ∧
             ((b - 0xE0) * 4096 + (b1 - 0x80) * 64 + (b2 - 0x80) < 0xD800 ∨
               0xE000 ≤ (b - 0xE0) * 4096 + (b1 - 0x80) * 64 + (b2 - 0x80)) then
           some [(b - 0xE0) * 4096 + (b1 - 0x80) * 64 + (b2 - 0x80)]
         else none)
       else if b < 0xF5 then none
       else none) := rfl

theorem utf8Decode_eq_cons4 (b b1 b2 b3 : Nat) (r : List Nat) :
    utf8Decode (b :: b1 :: b2 :: b3 :: r) =
      (if b < 0x80 then
        match utf8Decode (b1 :: b2 :: b3 :: r) with
        | some s => some (b :: s)
        | none => none
       else if b < 0xC2 then none
       else if b < 0xE0 then
         (if 0x80 ≤ b1 ∧ b1 < 0xC0 then
           match utf8Decode (b2 :: b3 :: r) with
           | some s => some (((b - 0xC0) * 64 + (b1 - 0x80)) :: s)
           | none => none
         else none)
       else if b < 0xF0 then
         (if 0x80 ≤ b1 ∧ b1 < 0xC0 ∧ 0x80 ≤ b2 ∧ b2 < 0xC0 ∧
             0x800 ≤ (b - 0xE0) * 4096 + (b1 - 0x80) * 64 + (b2 - 0x80) ∧
             ((b - 0xE0) * 4096 + (b1 - 0x80) * 64 + (b2 - 0x80) < 0xD800 ∨
               0xE000 ≤ (b - 0xE0) * 4096 + (b1 - 0x80) * 64 + (b2 - 0x80)) then
           match utf8Decode (b3 :: r) with
           | some s => some (((b - 0xE0) * 4096 + (b1 - 0x80) * 64 + (b2 - 0x80)) :: s)
           | none => none
         else none)
       else if b < 0xF5 then
         (if 0x80 ≤ b1 ∧ b1 < 0xC0 ∧ 0x80 ≤ b2 ∧ b2 < 0xC0 ∧ 0x80 ≤ b3 ∧ b3 < 0xC0 ∧
             0x10000 ≤ (b - 0xF0) * 262144 + (b1 - 0x80) * 4096 + (b2 - 0x80) * 64 + (b3 - 0x80) ∧
             (b - 0xF0) * 262144 + (b1 - 0x80) * 4096 + (b2 - 0x80) * 64 + (b3 - 0x80) ≤ 0x10FFFF then
           match utf8Decode r with
           | some s =>
             some (((b - 0xF0) * 262144 + (b1 - 0x80) * 4096 + (b2 - 0x80) * 64 + (b3 - 0x80)) :: s)
           | none => none
         else none)
       else none) := rfl

/-! One-step decoding lemmas, one per UTF-8 sequence length. -/

theorem utf8Decode_step1 {b : Nat} (h : b < 0x80) (r : List Nat) :
    utf8Decode (b :: r) = (utf8Decode r).map (b :: ·) := by
  rcases r with _ | ⟨b1, _ | ⟨b2, _ | ⟨b3, r⟩⟩⟩
  · rw [utf8Decode_eq_one, if_pos h]; rfl
  · rw [utf8Decode_eq_two, if_pos h]
    cases hr : utf8Decode [b1] <;> simp [hr]
  · rw [utf8Decode_eq_three, if_pos h]
    cases hr : utf8Decode [b1, b2] <;> simp [hr]
  · rw [utf8Decode_eq_cons4, if_pos h]
    cases hr : utf8Decode (b1 :: b2 :: b3 :: r) <;> simp [hr]

theorem utf8Decode_step2 {b b1 : Nat} (hb : 0xC2 ≤ b) (hb' : b < 0xE0)
    (h1 : 0x80 ≤ b1) (h1' : b1 < 0xC0) (r : List Nat) :
    utf8Decode (b :: b1 :: r) =
      (utf8Decode r).map (((b - 0xC0) * 64 + (b1 - 0x80)) :: ·) := by
  rcases r with _ | ⟨b2, _ | ⟨b3, r⟩⟩
  · rw [utf8Decode_eq_two, if_neg (by omega), if_neg (by omega), if_pos (by omega),
      if_pos ⟨h1, h1'⟩]
    rfl
  · rw [utf8Decode_eq_three, if_neg (by omega), if_neg (by omega), if_pos (by omega),
      if_pos ⟨h1, h1'⟩]
    cases hr : utf8Decode [b2] <;> simp [hr]
  · rw [utf8Decode_eq_cons4, if_neg (by omega), if_neg (by omega), if_pos (by omega),
      if_pos ⟨h1, h1'⟩]
    cases hr : utf8Decode (b2 :: b3 :: r) <;> simp [hr]

theorem utf8Decode_step3 {b b1 b2 : Nat} (hb : 0xE0 ≤ b) (hb' : b < 0xF0)
    (h1 : 0x80 ≤ b1) (h1' : b1 < 0xC0) (h2 : 0x80 ≤ b2) (h2' : b2 < 0xC0)
    (hv : 0x800 ≤ (b - 0xE0) * 4096 + (b1 - 0x80) * 64 + (b2 - 0x80))
    (hs : (b - 0xE0) * 4096 + (b1 - 0x80) * 64 + (b2 - 0x80) < 0xD800 ∨
      0xE000 ≤ (b - 0xE0) * 4096 + (b1 - 0x80) * 64 + (b2 - 0x80)) (r : List Nat) :
    utf8Decode (b :: b1 :: b2 :: r) =
      (utf8Decode r).map (((b - 0xE0) * 4096 + (b1 - 0x80) * 64 + (b2 - 0x80)) :: ·) := by
  rcases r with _ | ⟨b3, r⟩
  · rw [utf8Decode_eq_three, if_neg (by omega), if_neg (by omega), if_neg (by omega),
      if_pos (by omega), if_pos ⟨h1, h1', h2, h2', hv, hs⟩]
    rfl
  · rw [utf8Decode_eq_cons4, if_neg (by omega), if_neg (by omega), if_neg (by omega),
      if_pos (by omega), if_pos ⟨h1, h1', h2, h2', hv, hs⟩]
    cases hr : utf8Decode (b3 :: r) <;> simp [hr]

theorem utf8Decode_step4 {b b1 b2 b3 : Nat} (hb : 0xF0 ≤ b) (hb' : b < 0xF5)
    (h1 : 0x80 ≤ b1) (h1' : b1 < 0xC0) (h2 : 0x80 ≤ b2) (h2' : b2 < 0xC0)
    (h3 : 0x80 ≤ b3) (h3' : b3 < 0xC0)
    (hv : 0x10000 ≤ (b - 0xF0) * 262144 + (b1 - 0x80) * 4096 + (b2 - 0x80) * 64 + (b3 - 0x80))
    (hv' : (b - 0xF0) * 262144 + (b1 - 0x80) * 4096 + (b2 - 0x80) * 64 + (b3 - 0x80) ≤ 0x10FFFF)
    (r : List Nat) :
    utf8Decode (b :: b1 :: b2 :: b3 :: r) =
      (utf8Decode r).map
        (((b - 0xF0) * 262144 + (b1 - 0x80) * 4096 + (b2 - 0x80) * 64 + (b3 - 0x80)) :: ·) := by
  rw [utf8Decode_eq_cons4, if_neg (by omega), if_neg (by omega), if_neg (by omega),
    if_neg (by omega), if_pos (by omega), if_pos ⟨h1, h1', h2, h2', h3, h3', hv, hv'⟩]
  cases hr : utf8Decode r <;> simp [hr]

/-- Decoding after encoding one valid scalar prepended to any byte tail. -/
theorem utf8Decode_encodeChar_append {c : Nat} (hc : ValidChar c) (r : List Nat) :
    utf8Decode (utf8EncodeChar c ++ r) = (utf8Decode r).map (c :: ·) := by
  unfold ValidChar at hc
  by_cases h1 : c < 0x80
  · rw [utf8EncodeChar, if_pos h1]
    exact utf8Decode_step1 h1 r
  · by_cases h2 : c < 0x800
    · rw [utf8EncodeChar, if_neg h1, if_pos h2]
      show utf8Decode ((0xC0 + c / 64) :: (0x80 + c % 64) :: r) = _
      rw [utf8Decode_step2 (by omega) (by omega) (by omega) (by omega)]
      have hcp : (0xC0 + c / 64 - 0xC0) * 64 + (0x80 + c % 64 - 0x80) = c := by omega
      rw [hcp]
    · by_cases h3 : c < 0x10000
      · rw [utf8EncodeChar, if_neg h1, if_neg h2, if_pos h3]
        show utf8Decode
          ((0xE0 + c / 4096) :: (0x80 + c / 64 % 64) :: (0x80 + c % 64) :: r) = _
        have hm1 : c / 64 % 64 < 64 := Nat.mod_lt _ (by omega)
        have hcp : (0xE0 + c / 4096 - 0xE0) * 4096 + (0x80 + c / 64 % 64 - 0x80) * 64 +
            (0x80 + c % 64 - 0x80) = c := by omega
        rw [utf8Decode_step3 (by omega) (by omega) (by omega) (by omega) (by omega) (by omega)
          (by omega) (by omega)]
        rw [hcp]
      · rw [utf8EncodeChar, if_neg h1, if_neg h2, if_neg h3]
        show utf8Decode
          ((0xF0 + c / 262144) :: (0x80 + c / 4096 % 64) :: (0x80 + c / 64 % 64) ::
            (0x80 + c % 64) :: r) = _
        have hd : c / 262144 < 5 := by omega
        have hm2 : c / 4096 % 64 < 64 := Nat.mod_lt _ (by omega)
        have hm1 : c / 64 % 64 < 64 := Nat.mod_lt _ (by omega)
        have hcp : (0xF0 + c / 262144 - 0xF0) * 262144 + (0x80 + c / 4096 % 64 - 0x80) * 4096 +
            (0x80 + c / 64 % 64 - 0x80) * 64 + (0x80 + c % 64 - 0x80) = c := by omega
        rw [utf8Decode_step4 (by omega) (by omega) (by omega) (by omega) (by omega) (by omega)
          (by omega) (by omega) (by omega) (by omega)]
        rw [hcp]

/-- CPython round trip: decoding an encoded valid string succeeds and
returns the string. -/
theorem utf8Decode_utf8Encode {m : List Nat} (hm : ∀ c ∈ m, ValidChar c) :
    utf8Decode (utf8Encode m) = some m := by
  induction m with
  | nil => rfl
  | cons c cs ih =>
    rw [utf8Encode, utf8Decode_encodeChar_append (hm c (by simp)),
      ih (fun x hx => hm x (by simp [hx]))]
    rfl

/-! Reconstruction of the encoded bytes from a successful decode. -/

theorem utf8EncodeChar_one {b : Nat} (h : b < 0x80) : utf8EncodeChar b = [b] := by
  rw [utf8EncodeChar, if_pos h]

theorem utf8EncodeChar_two {b b1 : Nat} (hb : 0xC2 ≤ b) (hb' : b < 0xE0)
    (h1 : 0x80 ≤ b1) (h1' : b1 < 0xC0) :
    utf8EncodeChar ((b - 0xC0) * 64 + (b1 - 0x80)) = [b, b1] := by
  rw [utf8EncodeChar, if_neg (by omega), if_pos (by omega)]
  have e1 : 0xC0 + ((b - 0xC0) * 64 + (b1 - 0x80)) / 64 = b := by omega
  have e2 : 0x80 + ((b - 0xC0) * 64 + (b1 - 0x80)) % 64 = b1 := by omega
  rw [e1, e2]

theorem utf8EncodeChar_three {b b1 b2 : Nat} (hb : 0xE0 ≤ b) (hb' : b < 0xF0)
    (h1 : 0x80 ≤ b1) (h1' : b1 < 0xC0) (h2 : 0x80 ≤ b2) (h2' : b2 < 0xC0)
    (hv : 0x800 ≤ (b - 0xE0) * 4096 + (b1 - 0x80) * 64 + (b2 - 0x80)) :
    utf8EncodeChar ((b - 0xE0) * 4096 + (b1 - 0x80) * 64 + (b2 - 0x80)) = [b, b1, b2] := by
  rw [utf8EncodeChar, if_neg (by omega), if_neg (by omega), if_pos (by omega)]
  have e1 : 0xE0 + ((b - 0xE0) * 4096 + (b1 - 0x80) * 64 + (b2 - 0x80)) / 4096 = b := by omega
  have e2 : 0x80 + ((b - 0xE0) * 4096 + (b1 - 0x80) * 64 + (b2 - 0x80)) / 64 % 64 = b1 := by
    omega
  have e3 : 0x80 + ((b - 0xE0) * 4096 + (b1 - 0x80) * 64 + (b2 - 0x80)) % 64 = b2 := by omega
  rw [e1, e2, e3]

theorem utf8EncodeChar_four {b b1 b2 b3 : Nat} (hb : 0xF0 ≤ b) (hb' : b < 0xF5)
    (h1 : 0x80 ≤ b1) (h1' : b1 < 0xC0) (h2 : 0x80 ≤ b2) (h2' : b2 < 0xC0)
    (h3 : 0x80 ≤ b3) (h3' : b3 < 0xC0)
    (hv : 0x10000 ≤ (b - 0xF0) * 262144 + (b1 - 0x80) * 4096 + (b2 - 0x80) * 64 + (b3 - 0x80)) :
    utf8EncodeChar ((b - 0xF0) * 262144 + (b1 - 0x80) * 4096 + (b2 - 0x80) * 64 + (b3 - 0x80)) =
      [b, b1, b2, b3] := by
  rw [utf8EncodeChar, if_neg (by omega), if_neg (by omega), if_neg (by omega)]
  have e1 : 0xF0 +
      ((b - 0xF0) * 262144 + (b1 - 0x80) * 4096 + (b2 - 0x80) * 64 + (b3 - 0x80)) / 262144 =
      b := by omega
  have e2 : 0x80 +
      ((b - 0xF0) * 262144 + (b1 - 0x80) * 4096 + (b2 - 0x80) * 64 + (b3 - 0x80)) / 4096 % 64 =
      b1 := by omega
  have e3 : 0x80 +
      ((b - 0xF0) * 262144 + (b1 - 0x80) * 4096 + (b2 - 0x80) * 64 + (b3 - 0x80)) / 64 % 64 =
      b2 := by omega
  have e4 : 0x80 +
      ((b - 0xF0) * 262144 + (b1 - 0x80) * 4096 + (b2 - 0x80) * 64 + (b3 - 0x80)) % 64 =
      b3 := by omega
  rw [e1, e2, e3, e4]

/-- Strict decoding inverts the encoder: any successfully decoded byte list
is the encoding of its decode (UTF-8 encodings are unique). -/
theorem utf8Encode_of_utf8Decode {bs s : List Nat} (h : utf8Decode bs = some s) :
    utf8Encode s = bs := by
  have H : ∀ n (bs : List Nat), bs.length ≤ n → ∀ s, utf8Decode bs = some s →
      utf8Encode s = bs := by
    intro n
    induction n with
    | zero =>
      intro bs hl s h
      have hbs : bs = [] := List.length_eq_zero.mp (by omega)
      subst hbs
      rw [utf8Decode_eq_nil] at h
      cases h
      rfl
    | succ n ih =>
      intro bs hl s h
      rcases bs with _ | ⟨b, _ | ⟨b1, _ | ⟨b2, _ | ⟨b3, r⟩⟩⟩⟩
      · rw [utf8Decode_eq_nil] at h
        cases h
        rfl
      · rw [utf8Decode_eq_one] at h
        split_ifs at h with c1 c2 c3 c4 c5 <;> try simp at h
        · subst h
          rw [utf8Encode, utf8Encode, utf8EncodeChar_one c1, List.append_nil]
      · rw [utf8Decode_eq_two] at h
        split_ifs at h with c1 c2 c3 c4 c5 c6 <;> try simp at h
        · -- one-byte lead, recurse into [b1]
          cases hr : utf8Decode [b1] with
          | none => rw [hr] at h; simp at h
          | some s' =>
            rw [hr] at h
            simp only [Option.some.injEq] at h
            subst h
            rw [utf8Encode, utf8EncodeChar_one c1, ih [b1] (by simp at hl ⊢; omega) s' hr]
            rfl
        · -- two-byte sequence consuming both bytes
          subst h
          rw [utf8Encode, utf8Encode, utf8EncodeChar_two (by omega) (by omega) c4.1 c4.2,
            List.append_nil]
      · rw [utf8Decode_eq_three] at h
        split_ifs at h with c1 c2 c3 c4 c5 c6 c7 <;> try simp at h
        · cases hr : utf8Decode [b1, b2] with
          | none => rw [hr] at h; simp at h
          | some s' =>
            rw [hr] at h
            simp only [Option.some.injEq] at h
            subst h
            rw [utf8Encode, utf8EncodeChar_one c1, ih [b1, b2] (by simp at hl ⊢; omega) s' hr]
            rfl
        · cases hr : utf8Decode [b2] with
          | none => rw [hr] at h; simp at h
          | some s' =>
            rw [hr] at h
            simp only [Option.some.injEq] at h
            subst h
            rw [utf8Encode, utf8EncodeChar_two (by omega) (by omega) c4.1 c4.2,
              ih [b2] (by simp at hl ⊢; omega) s' hr]
            rfl
        · subst h
          rw [utf8Encode, utf8Encode, List.append_nil,
            utf8EncodeChar_three (by omega) (by omega) c6.1 c6.2.1 c6.2.2.1 c6.2.2.2.1
              c6.2.2.2.2.1]
      · rw [utf8Decode_eq_cons4] at h
        split_ifs at h with c1 c2 c3 c4 c5 c6 c7 c8 <;> try simp at h
        · cases hr : utf8Decode (b1 :: b2 :: b3 :: r) with
          | none => rw [hr] at h; simp at h
          | some s' =>
            rw [hr] at h
            simp only [Option.some.injEq] at h
            subst h
            rw [utf8Encode, utf8EncodeChar_one c1,
              ih (b1 :: b2 :: b3 :: r) (by simp at hl ⊢; omega) s' hr]
            rfl
        · cases hr : utf8Decode (b2 :: b3 :: r) with
          | none => rw [hr] at h; simp at h
          | some s' =>
            rw [hr] at h
            simp only [Option.some.injEq] at h
            subst h
            rw [utf8Encode, utf8EncodeChar_two (by omega) (by omega) c4.1 c4.2,
              ih (b2 :: b3 :: r) (by simp at hl ⊢; omega) s' hr]
            rfl
        · cases hr : utf8Decode (b3 :: r) with
          | none => rw [hr] at h; simp at h
          | some s' =>
            rw [hr] at h
            simp only [Option.some.injEq] at h
            subst h
            rw [utf8Encode,
              utf8EncodeChar_three (by omega) (by omega) c6.1 c6.2.1 c6.2.2.1 c6.2.2.2.1
                c6.2.2.2.2.1,
              ih (b3 :: r) (by simp at hl ⊢; omega) s' hr]
            rfl
        · cases hr : utf8Decode r with
          | none => rw [hr] at h; simp at h
          | some s' =>
            rw [hr] at h
            simp only [Option.some.injEq] at h
            subst h
            rw [utf8Encode,
              utf8EncodeChar_four (by omega) (by omega) c8.1 c8.2.1 c8.2.2.1 c8.2.2.2.1
                c8.2.2.2.2.1 c8.2.2.2.2.2.1 c8.2.2.2.2.2.2.1,
              ih r (by simp at hl ⊢; omega) s' hr]
            rfl
  exact H bs.length bs le_rfl s h

/-! ### Structure of Latin-1-range UTF-8 encodings

These lemmas drive an infinite-descent argument used for the wrong-password
property: in the encoding of a string, two *adjacent equal* bytes can only
be two consecutive one-byte (ASCII) characters, and under the byte-shift
constraint that pins each character to the byte at the same index, such a
pair forces another equal pair strictly earlier. -/

/-- The first byte of a non-empty encoding: the first character itself when
ASCII, otherwise a lead byte `≥ 0xC0`. -/
theorem utf8_head {cs : List Nat} {x : Nat} (h : (utf8Encode cs)[0]? = some x) :
    ∃ c', cs[0]? = some c' ∧ ((c' < 0x80 ∧ x = c') ∨ (0x80 ≤ c' ∧ 0xC0 ≤ x)) := by
  cases cs with
  | nil => simp [utf8Encode] at h
  | cons c' cs' =>
    refine ⟨c', by simp, ?_⟩
    rw [utf8Encode] at h
    unfold utf8EncodeChar at h
    split_ifs at h with g1 g2 g3 <;> simp at h <;> omega

/-- Two adjacent equal bytes in the encoding of an 8-bit string are two
consecutive ASCII characters; the character index is at most the byte
index, strictly less when the string starts with a non-ASCII character. -/
theorem utf8_adj_eq {m : List Nat} (hm : ∀ c ∈ m, c < 256) :
    ∀ {p x : Nat}, (utf8Encode m)[p]? = some x → (utf8Encode m)[p + 1]? = some x →
      ∃ σ, m[σ]? = some x ∧ m[σ + 1]? = some x ∧ x < 0x80 ∧ σ ≤ p ∧
        (∀ c0, m[0]? = some c0 → 0x80 ≤ c0 → σ < p) := by
  induction m with
  | nil => intro p x hp _; simp [utf8Encode] at hp
  | cons c cs ih =>
    intro p x hp hp1
    have hc : c < 256 := hm c (by simp)
    by_cases hA : c < 0x80
    · have he : utf8Encode (c :: cs) = c :: utf8Encode cs := by
        rw [utf8Encode, utf8EncodeChar_one hA]; rfl
      rw [he] at hp hp1
      cases p with
      | zero =>
        simp only [List.getElem?_cons_zero, Option.some.injEq] at hp
        subst hp
        simp only [List.getElem?_cons_succ] at hp1
        obtain ⟨c', hc', hcase⟩ := utf8_head hp1
        rcases hcase with ⟨hlt, rfl⟩ | ⟨_, hge⟩
        · exact ⟨0, by simpa using rfl, by simpa using hc', hlt, le_refl 0,
            fun c0 h0 hge0 => by simp at h0; omega⟩
        · omega
      | succ p' =>
        simp only [List.getElem?_cons_succ] at hp hp1
        obtain ⟨σ', h1, h2, h3, h4, _⟩ :=
          ih (fun a ha => hm a (by simp [ha])) hp hp1
        exact ⟨σ' + 1, by simpa using h1, by simpa using h2, h3, by omega,
          fun c0 h0 hge0 => by simp at h0; omega⟩
    · have he : utf8Encode (c :: cs) =
          (0xC0 + c / 64) :: (0x80 + c % 64) :: utf8Encode cs := by
        rw [utf8Encode, utf8EncodeChar, if_neg hA, if_pos (by omega)]; rfl
      rw [he] at hp hp1
      cases p with
      | zero =>
        simp only [List.getElem?_cons_zero, Option.some.injEq] at hp
        simp only [List.getElem?_cons_succ, List.getElem?_cons_zero,
          Option.some.injEq] at hp1
        omega
      | succ p' =>
        cases p' with
        | zero =>
          simp only [List.getElem?_cons_succ, List.getElem?_cons_zero,
            Option.some.injEq] at hp
          simp only [List.getElem?_cons_succ] at hp1
          obtain ⟨c', hc', hcase⟩ := utf8_head hp1
          rcases hcase with ⟨hlt, rfl⟩ | ⟨_, hge⟩ <;> omega
        | succ p'' =>
          simp only [List.getElem?_cons_succ] at hp hp1
          obtain ⟨σ', h1, h2, h3, h4, _⟩ :=
            ih (fun a ha => hm a (by simp [ha])) hp hp1
          exact ⟨σ' + 1, by simpa using h1, by simpa using h2, h3, by omega,
            fun c0 h0 hge0 => by omega⟩

/-- Infinite descent: if every character of `m` is the byte at its own
index shifted by a fixed nonzero `d (mod 256)`, and `m` starts with a
non-ASCII character, then the encoding of `m` has no two adjacent equal
bytes at all. -/
theorem utf8_no_adj_pair {m : List Nat} {d : Nat}
    (hm : ∀ c ∈ m, c < 256)
    (hhead : ∃ c0, m[0]? = some c0 ∧ 0x80 ≤ c0)
    (hd : d % 256 ≠ 0)
    (hconstr : ∀ (i c : Nat), m[i]? = some c →
      ∃ b : Nat, (utf8Encode m)[i]? = some b ∧ c = (b + d) % 256) :
    ∀ p x, (utf8Encode m)[p]? = some x → (utf8Encode m)[p + 1]? = some x → False := by
  intro p
  induction p using Nat.strong_induction_on with
  | _ p ih =>
    intro x hp hp1
    obtain ⟨σ, hσ, hσ1, hxlt, hσp, hstrict⟩ := utf8_adj_eq hm hp hp1
    obtain ⟨c0, hc0, hc0ge⟩ := hhead
    have hσlt : σ < p := hstrict c0 hc0 hc0ge
    obtain ⟨bσ, hbσ, hcbσ⟩ := hconstr σ x hσ
    obtain ⟨bσ1, hbσ1, hcbσ1⟩ := hconstr (σ + 1) x hσ1
    have hblt : ∀ b ∈ utf8Encode m, b < 256 :=
      utf8Encode_lt (fun a ha => lt_trans (hm a ha) (by norm_num))
    have h1 : bσ < 256 := hblt _ (List.getElem?_mem hbσ)
    have h2 : bσ1 < 256 := hblt _ (List.getElem?_mem hbσ1)
    have heq : bσ = bσ1 := by omega
    exact ih σ hσlt bσ hbσ (heq ▸ hbσ1)

/-! ### Unfolding the two codec entry points -/

/-- `decode_message` written with the scan result exposed and the inline
byte shift folded into `reverseShift` (definitionally equal). -/
theorem decode_message_eq (img : Img) (pwd : List Nat) :
    decode_message img pwd =
      (match findPayload [] (bytesOfBits (img.channels.map (· % 2))) with
      | none => ⟨false, .noMessage, none⟩
      | some pb =>
        ⟨true, .extracted,
          some (match utf8Decode (reverseShift pb pwd) with
                | some s => s
                | none => reverseShift pb pwd)⟩) := rfl

/-- `encode_message` written with the inline byte shift folded into
`applyShift` (definitionally equal). -/
theorem encode_message_eq (img : Img) (message password : List Nat) :
    encode_message img message password =
      (if img.width * img.height * 3 <
          (bitsOfBytes (applyShift (utf8Encode message) password ++ DELIM)).length then
        { success := false
          msg := .tooLarge ((img.width * img.height * 3 / 8 : Int) - (DELIM.length : Int))
                  (applyShift (utf8Encode message) password ++ DELIM).length
          capacity := img.width * img.height * 3 / 8
          used := (applyShift (utf8Encode message) password ++ DELIM).length
          output := none }
      else
        { success := true
          msg := .hidden
          capacity := img.width * img.height * 3 / 8
          used := (applyShift (utf8Encode message) password ++ DELIM).length
          output := some ⟨img.width, img.height,
            embedBits img.channels
              (bitsOfBytes (applyShift (utf8Encode message) password ++ DELIM))⟩ }) := rfl

/-! ### Per-index view of the embedding -/

theorem embedBits_getElem_lt :
    ∀ (flat bits : List Nat) (i b c : Nat), bits[i]? = some b → flat[i]? = some c →
      (embedBits flat bits)[i]? = some (c / 2 * 2 + b) := by
  intro flat
  induction flat with
  | nil => intro bits i b c _ hc; simp at hc
  | cons x flat ih =>
    intro bits i b c hb hc
    cases bits with
    | nil => simp at hb
    | cons y bits =>
      cases i with
      | zero =>
        simp only [List.getElem?_cons_zero, Option.some.injEq] at hb hc
        subst hb; subst hc
        rw [embedBits]
        simp
      | succ i =>
        simp only [List.getElem?_cons_succ] at hb hc
        rw [embedBits]
        simp only [List.getElem?_cons_succ]
        exact ih bits i b c hb hc

theorem embedBits_getElem_ge :
    ∀ (flat bits : List Nat) (i : Nat), bits.length ≤ i →
      (embedBits flat bits)[i]? = flat[i]? := by
  intro flat
  induction flat with
  | nil =>
    intro bits i _
    cases bits with
    | nil => rfl
    | cons y bits => rfl
  | cons x flat ih =>
    intro bits i hi
    cases bits with
    | nil => rfl
    | cons y bits =>
      cases i with
      | zero => simp at hi
      | succ i =>
        simp only [embedBits, List.getElem?_cons_succ]
        exact ih bits i (by simp at hi; omega)

theorem embedBits_getElem_upper :
    ∀ (flat bits : List Nat), (∀ x ∈ bits, x < 2) →
      ∀ (i c' : Nat), (embedBits flat bits)[i]? = some c' →
        ∃ c, flat[i]? = some c ∧ c' / 2 = c / 2 := by
  intro flat
  induction flat with
  | nil =>
    intro bits _ i c' h
    cases bits with
    | nil => simp [embedBits] at h
    | cons y bits => simp [embedBits] at h
  | cons x flat ih =>
    intro bits hb i c' h
    cases bits with
    | nil =>
      refine ⟨c', ?_, rfl⟩
      simpa [embedBits] using h
    | cons y bits =>
      cases i with
      | zero =>
        simp only [embedBits, List.getElem?_cons_zero, Option.some.injEq] at h
        refine ⟨x, by simp, ?_⟩
        have : y < 2 := hb y (by simp)
        omega
      | succ i =>
        simp only [embedBits, List.getElem?_cons_succ] at h ⊢
        exact ih bits (fun a ha => hb a (by simp [ha])) i c' h

/-! ### Payload bytes returned by the scan are taken from the stream -/

theorem firstSplit_some_take {s pl : List Nat} (h : firstSplit s = some pl) :
    ∃ k, k ≤ s.length ∧ pl = s.take k := by
  induction s generalizing pl with
  | nil => simp [firstSplit] at h
  | cons b rest ih =>
    rw [firstSplit] at h
    split_ifs at h with hc
    · cases h
      exact ⟨0, by simp, rfl⟩
    · cases hfs : firstSplit rest with
      | none => rw [hfs] at h; simp at h
      | some pl' =>
        rw [hfs] at h
        simp only [Option.map_some', Option.some.injEq] at h
        obtain ⟨k, hk, rfl⟩ := ih hfs
        exact ⟨k + 1, by simp only [List.length_cons]; omega,
          by rw [List.take_succ_cons, ← h]⟩

theorem findPayload_some_mem {bytes pl : List Nat} (h : findPayload [] bytes = some pl) :
    ∀ x ∈ pl, x ∈ bytes := by
  have hacc : ∀ i, ¬ delimAt ([] : List Nat) i := by
    intro i hda
    have := delimAt_length hda
    simp at this
  rw [findPayload_eq bytes [] hacc, List.nil_append] at h
  obtain ⟨k, _, rfl⟩ := firstSplit_some_take h
  exact fun x hx => List.take_subset k bytes hx

theorem bytesOfBits_length (bits : List Nat) :
    (bytesOfBits bits).length = bits.length / 8 := by
  induction bits using bytesOfBits.induct with
  | case1 b0 b1 b2 b3 b4 b5 b6 b7 rest ih =>
    rw [bytesOfBits]
    simp only [List.length_cons, ih]
    omega
  | case2 l h1 =>
    rcases l with _ | ⟨a0, _ | ⟨a1, _ | ⟨a2, _ | ⟨a3, _ | ⟨a4, _ | ⟨a5, _ | ⟨a6, _ |
      ⟨a7, rest⟩⟩⟩⟩⟩⟩⟩⟩
    · rfl
    · simp [bytesOfBits]
    · simp [bytesOfBits]
    · simp [bytesOfBits]
    · simp [bytesOfBits]
    · simp [bytesOfBits]
    · simp [bytesOfBits]
    · simp [bytesOfBits]
    · exact absurd rfl (h1 a0 a1 a2 a3 a4 a5 a6 a7 rest)

/-! ### Claim theorems -/

/-- C4: `image_capacity` reports
`floor(w*h*min(channels,3)/8) - len(delimiter) - 10`, floored at zero, and
that value is monotone in `w*h` for a fixed band count. -/
theorem image_capacity_formula_and_mono :
    (∀ w h bands : Nat, (image_capacity w h bands : Int) =
      max (((w * h * min bands 3 / 8 : Nat) : Int) - (DELIM.length : Int) - 10) 0) ∧
    (∀ w1 h1 w2 h2 bands : Nat, w1 * h1 ≤ w2 * h2 →
      image_capacity w1 h1 bands ≤ image_capacity w2 h2 bands) := by
  constructor
  · intro w h bands
    simp only [image_capacity]
    rw [Int.toNat_of_nonneg (le_max_right _ _)]
  · intro w1 h1 w2 h2 bands hle
    have hc : w1 * h1 * min bands 3 / 8 ≤ w2 * h2 * min bands 3 / 8 :=
      Nat.div_le_div_right (Nat.mul_le_mul_right _ hle)
    simp only [image_capacity, DELIM]
    omega

/-- C2: the password transform is inverted exactly by the reverse
transform, and it preserves byte-sequence length. -/
theorem applyShift_reverseShift_roundtrip (bs p : List Nat) (hb : ∀ b ∈ bs, b < 256) :
    reverseShift (applyShift bs p) p = bs ∧ (applyShift bs p).length = bs.length :=
  ⟨reverseShift_applyShift p hb, applyShift_length bs p⟩

/-- Witness for C2 at the byte sequence `[0, 100, 255]` and the password
`"hunter2"`. -/
theorem applyShift_reverseShift_roundtrip_witness :
    reverseShift (applyShift [0, 100, 255] [104, 117, 110, 116, 101, 114, 50])
        [104, 117, 110, 116, 101, 114, 50] = [0, 100, 255] ∧
      (applyShift [0, 100, 255] [104, 117, 110, 116, 101, 114, 50]).length =
        ([0, 100, 255] : List Nat).length :=
  applyShift_reverseShift_roundtrip [0, 100, 255] [104, 117, 110, 116, 101, 114, 50] (by decide)

/-- C10: the transform depends on the password only through the checksum
`sum % 256`; passwords with congruent checksums shift identically and make
`decode_message` agree on every image. -/
theorem shift_depends_only_on_checksum (b p1 p2 : List Nat) (hb : ∀ x ∈ b, x < 256)
    (hsum : p1.sum % 256 = p2.sum % 256) :
    applyShift b p1 = applyShift b p2 ∧ reverseShift b p1 = reverseShift b p2 ∧
      ∀ img : Img, decode_message img p1 = decode_message img p2 := by
  refine ⟨?_, ?_, ?_⟩
  · rw [applyShift_eq_map p1 hb, applyShift_eq_map p2 hb, hsum]
  · rw [reverseShift_eq_map p1 hb, reverseShift_eq_map p2 hb, hsum]
  · intro img
    rw [decode_message_eq, decode_message_eq]
    cases hfp : findPayload [] (bytesOfBits (img.channels.map (· % 2))) with
    | none => rfl
    | some pb =>
      have hpb : ∀ x ∈ pb, x < 256 := by
        intro x hx
        refine bytesOfBits_lt ?_ x (findPayload_some_mem hfp x hx)
        intro y hy
        obtain ⟨z, _, rfl⟩ := List.mem_map.mp hy
        omega
      simp only
      rw [reverseShift_eq_map p1 hpb, reverseShift_eq_map p2 hpb, hsum]

/-- Witness for C10: a nonempty password of checksum `0 (mod 256)` (the
one-character string `"Ā"`, code point 256) behaves exactly like the empty
password. -/
theorem shift_depends_only_on_checksum_witness :
    applyShift [65] [256] = applyShift [65] [] ∧
      reverseShift [65] [256] = reverseShift [65] [] ∧
      ∀ img : Img, decode_message img [256] = decode_message img [] :=
  shift_depends_only_on_checksum [65] [256] [] (by decide) (by decide)

/-- C3: a message whose payload-plus-delimiter bit count exceeds
`w*h*3` makes `encode_message` fail, reporting the available and required
sizes, and no output image is written. -/
theorem encode_capacity_rejected (img : Img) (m pwd : List Nat)
    (hover : img.width * img.height * 3 < 8 * ((utf8Encode m).length + DELIM.length)) :
    encode_message img m pwd =
      { success := false
        msg := .tooLarge ((img.width * img.height * 3 / 8 : Int) - (DELIM.length : Int))
                ((utf8Encode m).length + DELIM.length)
        capacity := img.width * img.height * 3 / 8
        used := (utf8Encode m).length + DELIM.length
        output := none } := by
  rw [encode_message_eq]
  have hlen : (applyShift (utf8Encode m) pwd ++ DELIM).length =
      (utf8Encode m).length + DELIM.length := by
    rw [List.length_append, applyShift_length]
  have hbits : (bitsOfBytes (applyShift (utf8Encode m) pwd ++ DELIM)).length =
      8 * ((utf8Encode m).length + DELIM.length) := by
    rw [bitsOfBytes_length, hlen]
  rw [if_pos (by rw [hbits]; exact hover), hlen]

/-- Witness for C3: a 1×1 image cannot hold `"A"`. -/
theorem encode_capacity_rejected_witness :
    encode_message ⟨1, 1, [0, 0, 0]⟩ [65] [] =
      { success := false
        msg := .tooLarge ((1 * 1 * 3 / 8 : Int) - (DELIM.length : Int))
                ((utf8Encode [65]).length + DELIM.length)
        capacity := 1 * 1 * 3 / 8
        used := (utf8Encode [65]).length + DELIM.length
        output := none } :=
  encode_capacity_rejected ⟨1, 1, [0, 0, 0]⟩ [65] [] (by decide)

/-- C8 (amended): `_bits_to_text` groups bits into bytes of eight
(most-significant bit first), silently drops a trailing group of fewer
than eight bits, and turns each byte into one character whose code point
is the byte value (`chr(byte)`, Latin-1 style) — it does not UTF-8-decode
the byte sequence. -/
theorem bits_to_text_grouping (bits : List Nat) :
    bits_to_text bits = bytesOfBits bits ∧
      (bits_to_text bits).length = bits.length / 8 := by
  have h : bits_to_text bits = bytesOfBits bits := by
    induction bits using bytesOfBits.induct with
    | case1 b0 b1 b2 b3 b4 b5 b6 b7 rest ih =>
      rw [bits_to_text, bytesOfBits, if_pos (by simp)]
      simp only [List.take_succ_cons, List.take_zero, List.drop_succ_cons, List.drop_zero,
        List.foldl_cons, List.foldl_nil]
      rw [ih]
      congr 1
      omega
    | case2 l h1 =>
      rcases l with _ | ⟨a0, _ | ⟨a1, _ | ⟨a2, _ | ⟨a3, _ | ⟨a4, _ | ⟨a5, _ | ⟨a6, _ |
        ⟨a7, rest⟩⟩⟩⟩⟩⟩⟩⟩
      · rw [bits_to_text, if_neg (by simp)]; rfl
      · rw [bits_to_text, if_neg (by simp)]; simp [bytesOfBits]
      · rw [bits_to_text, if_neg (by simp)]; simp [bytesOfBits]
      · rw [bits_to_text, if_neg (by simp)]; simp [bytesOfBits]
      · rw [bits_to_text, if_neg (by simp)]; simp [bytesOfBits]
      · rw [bits_to_text, if_neg (by simp)]; simp [bytesOfBits]
      · rw [bits_to_text, if_neg (by simp)]; simp [bytesOfBits]
      · rw [bits_to_text, if_neg (by simp)]; simp [bytesOfBits]
      · exact absurd rfl (h1 a0 a1 a2 a3 a4 a5 a6 a7 rest)
  exact ⟨h, by rw [h, bytesOfBits_length]⟩

/-- Counterexample to C8 as stated: on the 16 bits of the UTF-8 encoding
of `"¢"` (bytes `C2 A2`), interpreting the grouped bytes as UTF-8 gives
the one-character string `"¢"` (code point `0xA2`), but `_bits_to_text`
returns the two-character string `chr(0xC2) ++ chr(0xA2)`. -/
theorem bits_to_text_not_utf8 :
    utf8Decode (bytesOfBits [1, 1, 0, 0, 0, 0, 1, 0, 1, 0, 1, 0, 0, 0, 1, 0]) =
        some [0xA2] ∧
      bits_to_text [1, 1, 0, 0, 0, 0, 1, 0, 1, 0, 1, 0, 0, 0, 1, 0] = [0xC2, 0xA2] ∧
      ([0xC2, 0xA2] : List Nat) ≠ [0xA2] := by
  refine ⟨by decide, ?_, by decide⟩
  simp [bits_to_text]

/-- C9: on a successful encode, channel `i` of the output carries bit `i`
in its least-significant bit for `i < len(bits)`, channels at and beyond
`len(bits)` are unchanged, and the upper seven bits of every channel are
preserved. -/
theorem encode_frame_effect (img : Img) (m pwd : List Nat)
    (hch : img.channels.length = img.width * img.height * 3)
    (hfit : 8 * ((utf8Encode m).length + DELIM.length) ≤ img.width * img.height * 3) :
    ∃ out, (encode_message img m pwd).output = some out ∧
      out.channels.length = img.channels.length ∧
      (∀ i b c : Nat,
        (bitsOfBytes (applyShift (utf8Encode m) pwd ++ DELIM))[i]? = some b →
        img.channels[i]? = some c → out.channels[i]? = some (c / 2 * 2 + b)) ∧
      (∀ i : Nat, (bitsOfBytes (applyShift (utf8Encode m) pwd ++ DELIM)).length ≤ i →
        out.channels[i]? = img.channels[i]?) ∧
      (∀ i c' : Nat, out.channels[i]? = some c' →
        ∃ c, img.channels[i]? = some c ∧ c' / 2 = c / 2) := by
  have hblen : (bitsOfBytes (applyShift (utf8Encode m) pwd ++ DELIM)).length =
      8 * ((utf8Encode m).length + DELIM.length) := by
    rw [bitsOfBytes_length, List.length_append, applyShift_length]
  have hle : (bitsOfBytes (applyShift (utf8Encode m) pwd ++ DELIM)).length ≤
      img.channels.length := by rw [hblen, hch]; exact hfit
  refine ⟨⟨img.width, img.height,
      embedBits img.channels (bitsOfBytes (applyShift (utf8Encode m) pwd ++ DELIM))⟩,
    ?_, ?_, ?_, ?_, ?_⟩
  · rw [encode_message_eq, if_neg (by rw [hblen]; omega)]
  · exact embedBits_length hle
  · intro i b c hb hc
    exact embedBits_getElem_lt _ _ i b c hb hc
  · intro i hi
    exact embedBits_getElem_ge _ _ i hi
  · intro i c' h
    exact embedBits_getElem_upper _ _ (fun x hx => bitsOfBytes_lt_two hx) i c' h

/-- Witness for C9: a 4×5 all-nines image and the empty message. -/
theorem encode_frame_effect_witness :
    ∃ out, (encode_message ⟨4, 5, List.replicate 60 9⟩ [] []).output = some out ∧
      out.channels.length = (List.replicate 60 9 : List Nat).length ∧
      (∀ i b c : Nat,
        (bitsOfBytes (applyShift (utf8Encode []) [] ++ DELIM))[i]? = some b →
        (List.replicate 60 9 : List Nat)[i]? = some c →
          out.channels[i]? = some (c / 2 * 2 + b)) ∧
      (∀ i : Nat, (bitsOfBytes (applyShift (utf8Encode []) [] ++ DELIM)).length ≤ i →
        out.channels[i]? = (List.replicate 60 9 : List Nat)[i]?) ∧
      (∀ i c' : Nat, out.channels[i]? = some c' →
        ∃ c, (List.replicate 60 9 : List Nat)[i]? = some c ∧ c' / 2 = c / 2) :=
  encode_frame_effect ⟨4, 5, List.replicate 60 9⟩ [] [] (by decide) (by decide)

/-- C6: `decode_message` is a total function (the Python code catches all
exceptions); when the scan exhausts the bits without matching the
delimiter it returns a structured failure with `secret = None`, and when
the stripped, un-shifted payload is not valid UTF-8 it falls back to the
per-byte Latin-1 reading and still reports success. -/
theorem decode_total_behavior (img : Img) (pwd : List Nat) :
    (findPayload [] (bytesOfBits (img.channels.map (· % 2))) = none →
      decode_message img pwd = ⟨false, .noMessage, none⟩) ∧
    (∀ pb, findPayload [] (bytesOfBits (img.channels.map (· % 2))) = some pb →
      utf8Decode (reverseShift pb pwd) = none →
      decode_message img pwd = ⟨true, .extracted, some (reverseShift pb pwd)⟩) := by
  constructor
  · intro h
    rw [decode_message_eq, h]
  · intro pb h hu
    rw [decode_message_eq, h]
    simp only [hu]

/-- Witness for C6: an all-zero image yields the no-message failure; a bit
stream carrying the single byte `0x80` (not valid UTF-8) before the
delimiter decodes successfully through the Latin-1 fallback. -/
theorem decode_total_behavior_witness :
    decode_message ⟨2, 2, List.replicate 12 0⟩ [] = ⟨false, .noMessage, none⟩ ∧
      decode_message ⟨4, 3, bitsOfBytes ([0x80] ++ DELIM)⟩ [] =
        ⟨true, .extracted, some (reverseShift [0x80] [])⟩ :=
  ⟨(decode_total_behavior ⟨2, 2, List.replicate 12 0⟩ []).1 (by decide),
   (decode_total_behavior ⟨4, 3, bitsOfBytes ([0x80] ++ DELIM)⟩ []).2 [0x80]
     (by decide) (by decide)⟩

/-- C5: the delimiter is appended to the already-transformed payload bytes
(the first `8*len(full)` least-significant bits of the output image are
exactly the bits of `ApplyShift(utf8(m), pwd) ++ DELIM`), and decode
strips the matched delimiter first and only then applies `ReverseShift`
(the secret is computed from `ReverseShift` of the delimiter-stripped
payload). -/
theorem delimiter_appended_post_transform (img : Img) (m pwd : List Nat)
    (hch : img.channels.length = img.width * img.height * 3)
    (hfit : 8 * ((utf8Encode m).length + DELIM.length) ≤ img.width * img.height * 3) :
    (∃ out, (encode_message img m pwd).output = some out ∧
      (out.channels.map (· % 2)).take
          (8 * ((applyShift (utf8Encode m) pwd ++ DELIM).length)) =
        bitsOfBytes (applyShift (utf8Encode m) pwd ++ DELIM)) ∧
    (∀ img2 : Img, ∀ pb : List Nat,
      findPayload [] (bytesOfBits (img2.channels.map (· % 2))) = some pb →
      (decode_message img2 pwd).secret =
        some (match utf8Decode (reverseShift pb pwd) with
              | some s => s
              | none => reverseShift pb pwd)) := by
  have hblen : (bitsOfBytes (applyShift (utf8Encode m) pwd ++ DELIM)).length =
      8 * ((utf8Encode m).length + DELIM.length) := by
    rw [bitsOfBytes_length, List.length_append, applyShift_length]
  have hle : (bitsOfBytes (applyShift (utf8Encode m) pwd ++ DELIM)).length ≤
      img.channels.length := by rw [hblen, hch]; exact hfit
  constructor
  · refine ⟨⟨img.width, img.height,
        embedBits img.channels (bitsOfBytes (applyShift (utf8Encode m) pwd ++ DELIM))⟩,
      ?_, ?_⟩
    · rw [encode_message_eq, if_neg (by rw [hblen]; omega)]
    · show ((embedBits img.channels _).map (· % 2)).take _ = _
      rw [embedBits_lsb (fun x hx => bitsOfBytes_lt_two hx) hle]
      have h8 : 8 * (applyShift (utf8Encode m) pwd ++ DELIM).length =
          (bitsOfBytes (applyShift (utf8Encode m) pwd ++ DELIM)).length := by
        rw [bitsOfBytes_length]
      rw [h8, List.take_left]
  · intro img2 pb h
    rw [decode_message_eq, h]

/-- Witness for C5 at a 4×5 all-nines image, empty message and password. -/
theorem delimiter_appended_post_transform_witness :
    (∃ out, (encode_message ⟨4, 5, List.replicate 60 9⟩ [] []).output = some out ∧
      (out.channels.map (· % 2)).take
          (8 * ((applyShift (utf8Encode []) [] ++ DELIM).length)) =
        bitsOfBytes (applyShift (utf8Encode []) [] ++ DELIM)) ∧
    (∀ img2 : Img, ∀ pb : List Nat,
      findPayload [] (bytesOfBits (img2.channels.map (· % 2))) = some pb →
      (decode_message img2 []).secret =
        some (match utf8Decode (reverseShift pb []) with
              | some s => s
              | none => reverseShift pb [])) :=
  delimiter_appended_post_transform ⟨4, 5, List.replicate 60 9⟩ [] [] (by decide) (by decide)

/-- The encode output image and the byte stream its decode scan sees:
the transformed payload, the delimiter, then the bytes formed from the
untouched channels' least-significant bits. -/
theorem encode_stream (img : Img) (m pwd : List Nat)
    (hch : img.channels.length = img.width * img.height * 3)
    (hmb : ∀ b ∈ utf8Encode m, b < 256)
    (hfit : 8 * ((utf8Encode m).length + DELIM.length) ≤ img.width * img.height * 3) :
    (encode_message img m pwd).output =
      some ⟨img.width, img.height,
        embedBits img.channels (bitsOfBytes (applyShift (utf8Encode m) pwd ++ DELIM))⟩ ∧
    bytesOfBits
        ((embedBits img.channels
            (bitsOfBytes (applyShift (utf8Encode m) pwd ++ DELIM))).map (· % 2)) =
      applyShift (utf8Encode m) pwd ++
        (DELIM ++ bytesOfBits
          ((img.channels.drop
            (8 * ((utf8Encode m).length + DELIM.length))).map (· % 2))) := by
  have hblen : (bitsOfBytes (applyShift (utf8Encode m) pwd ++ DELIM)).length =
      8 * ((utf8Encode m).length + DELIM.length) := by
    rw [bitsOfBytes_length, List.length_append, applyShift_length]
  have hle : (bitsOfBytes (applyShift (utf8Encode m) pwd ++ DELIM)).length ≤
      img.channels.length := by rw [hblen, hch]; exact hfit
  constructor
  · rw [encode_message_eq, if_neg (by rw [hblen]; omega)]
  · rw [embedBits_lsb (fun x hx => bitsOfBytes_lt_two hx) hle]
    have hfull : ∀ b ∈ applyShift (utf8Encode m) pwd ++ DELIM, b < 256 := by
      intro b hb
      rcases List.mem_append.mp hb with h | h
      · exact applyShift_lt pwd hmb b h
      · fin_cases h <;> norm_num
    rw [bytesOfBits_bitsOfBytes hfull, hblen, List.append_assoc]

/-- C1 (amended): when the transformed payload does not itself contain the
delimiter byte sequence, encoding any valid string into an image with
sufficient capacity and decoding with the same password returns success
with exactly the original string. -/
theorem encode_decode_roundtrip (img : Img) (m pwd : List Nat)
    (hch : img.channels.length = img.width * img.height * 3)
    (hm : ∀ c ∈ m, ValidChar c)
    (hcap : (utf8Encode m).length + DELIM.length ≤ img.width * img.height * 3 / 8)
    (hnd : ∀ i < (applyShift (utf8Encode m) pwd).length,
      ¬ delimAt (applyShift (utf8Encode m) pwd) i) :
    ∃ out, (encode_message img m pwd).output = some out ∧
      decode_message out pwd = ⟨true, .extracted, some m⟩ := by
  have hmlt : ∀ b ∈ utf8Encode m, b < 256 := by
    refine utf8Encode_lt ?_
    intro c hc
    rcases hm c hc with h | ⟨_, h⟩ <;> omega
  have hfit : 8 * ((utf8Encode m).length + DELIM.length) ≤ img.width * img.height * 3 := by
    have := (Nat.le_div_iff_mul_le (by norm_num : 0 < 8)).mp hcap
    omega
  obtain ⟨hout, hstream⟩ := encode_stream img m pwd hch hmlt hfit
  refine ⟨_, hout, ?_⟩
  rw [decode_message_eq]
  show (match findPayload []
      (bytesOfBits ((embedBits img.channels
        (bitsOfBytes (applyShift (utf8Encode m) pwd ++ DELIM))).map (· % 2))) with
    | none => (⟨false, .noMessage, none⟩ : DecodeResult)
    | some pb => _) = _
  rw [hstream, findPayload_finds (delimAt_of_bounded hnd)]
  simp only
  rw [reverseShift_applyShift pwd hmlt, utf8Decode_utf8Encode hm]

/-- Witness for C1 at the message `"hi"`, password `"a"`, on an 8×5
all-zero image. -/
theorem encode_decode_roundtrip_witness :
    ∃ out, (encode_message ⟨8, 5, List.replicate 120 0⟩ [104, 105] [97]).output = some out ∧
      decode_message out [97] = ⟨true, .extracted, some [104, 105]⟩ :=
  encode_decode_roundtrip ⟨8, 5, List.replicate 120 0⟩ [104, 105] [97]
    (by decide) (by decide) (by decide) (by decide)

/-- Counterexample to C1 as stated: the message `"<<END>>"` (the delimiter
itself) fits an 8×5 image and is correctly encoded with the empty
password, yet decoding with the same password returns the empty string,
because the scan hits the payload's own delimiter bytes first. -/
theorem encode_decode_roundtrip_counterexample :
    (∀ c ∈ DELIM, ValidChar c) ∧
      (utf8Encode DELIM).length + DELIM.length ≤ 8 * 5 * 3 / 8 ∧
      ∃ out, (encode_message ⟨8, 5, List.replicate 120 0⟩ DELIM []).output = some out ∧
        decode_message out [] = ⟨true, .extracted, some []⟩ ∧
        decode_message out [] ≠ ⟨true, .extracted, some DELIM⟩ := by
  refine ⟨by decide, by decide, ?_⟩
  refine ⟨⟨8, 5, embedBits (List.replicate 120 0)
    (bitsOfBytes (applyShift (utf8Encode DELIM) [] ++ DELIM))⟩, ?_, ?_, ?_⟩
  · decide
  · decide
  · decide

/-! ### C7: wrong password never returns the original message -/

theorem map_shift_unshift {u : List Nat} (s1 s2 : Nat) (hu : ∀ b ∈ u, b < 256) :
    (u.map (fun b => (b + s1 % 256) % 256)).map (fun b => (b + 256 - s2 % 256) % 256) =
      u.map (fun b => (b + ((s1 % 256 + 256 - s2 % 256) % 256)) % 256) := by
  rw [List.map_map]
  apply List.map_congr_left
  intro b hb
  have := hu b hb
  have h1 : s1 % 256 < 256 := Nat.mod_lt _ (by omega)
  have h2 : s2 % 256 < 256 := Nat.mod_lt _ (by omega)
  simp only [Function.comp_apply]
  omega

theorem findPayload_first (stream : List Nat) (hex : ∃ i, delimAt stream i) :
    findPayload [] stream = some (stream.take (Nat.find hex)) := by
  have hacc : ∀ i, ¬ delimAt ([] : List Nat) i := by
    intro i hda
    have := delimAt_length hda
    simp at this
  rw [findPayload_eq stream [] hacc, List.nil_append]
  exact firstSplit_some (Nat.find_spec hex) (fun i hi => Nat.find_min hex hi)

/-- The first two bytes of a delimiter occurrence are both `60` (`"<<"`). -/
theorem delimAt_two_sixties {s : List Nat} {i : Nat} (h : delimAt s i) :
    s[i]? = some 60 ∧ s[i + 1]? = some 60 := by
  unfold delimAt at h
  constructor
  · have h0 := congrArg (fun l => l[0]?) h
    simp only at h0
    rw [List.getElem?_take_of_lt (by norm_num), List.getElem?_drop] at h0
    simpa [DELIM] using h0
  · have h1 := congrArg (fun l => l[1]?) h
    simp only at h1
    rw [List.getElem?_take_of_lt (by norm_num), List.getElem?_drop] at h1
    simpa [DELIM] using h1

/-- C7 (amended): for every nonempty message, encoding with password `p1`
and decoding with a password `p2` of different checksum mod 256 never
returns the original message: whenever decode reports success the secret
differs from `m` (in fact the secret always differs from `m`). -/
theorem wrong_password_not_original (img : Img) (m p1 p2 : List Nat)
    (hch : img.channels.length = img.width * img.height * 3)
    (hm : ∀ c ∈ m, ValidChar c)
    (hne : m ≠ [])
    (hsum : p1.sum % 256 ≠ p2.sum % 256)
    (hcap : (utf8Encode m).length + DELIM.length ≤ img.width * img.height * 3 / 8) :
    ∀ out, (encode_message img m p1).output = some out →
      (decode_message out p2).secret ≠ some m := by
  intro out hout hsec
  have hmlt : ∀ b ∈ utf8Encode m, b < 256 := by
    refine utf8Encode_lt ?_
    intro c hc
    rcases hm c hc with h | ⟨_, h⟩ <;> omega
  have hfit : 8 * ((utf8Encode m).length + DELIM.length) ≤ img.width * img.height * 3 := by
    have := (Nat.le_div_iff_mul_le (by norm_num : 0 < 8)).mp hcap
    omega
  obtain ⟨hout', hstream⟩ := encode_stream img m p1 hch hmlt hfit
  rw [hout] at hout'
  have hout2 : out = ⟨img.width, img.height,
      embedBits img.channels (bitsOfBytes (applyShift (utf8Encode m) p1 ++ DELIM))⟩ := by
    exact Option.some.inj hout'
  subst hout2
  -- abbreviations
  set u := utf8Encode m with hu
  set v := applyShift u p1 with hv
  set J := bytesOfBits
    ((img.channels.drop (8 * (u.length + DELIM.length))).map (· % 2)) with hJ
  set D := (p1.sum % 256 + 256 - p2.sum % 256) % 256 with hD
  have hvmap : v = u.map (fun b => (b + p1.sum % 256) % 256) := applyShift_eq_map p1 hmlt
  have hvlen : v.length = u.length := by rw [hvmap, List.length_map]
  have hvlt : ∀ b ∈ v, b < 256 := applyShift_lt p1 hmlt
  have hDne : D ≠ 0 := by
    have h1 : p1.sum % 256 < 256 := Nat.mod_lt _ (by omega)
    have h2 : p2.sum % 256 < 256 := Nat.mod_lt _ (by omega)
    omega
  have hDlt : D < 256 := Nat.mod_lt _ (by omega)
  have hulen : m.length ≤ u.length := utf8Encode_length_ge m
  have hmne : u ≠ [] := by
    intro h0
    have := List.length_eq_zero.mpr h0
    have hml : m.length = 0 := by omega
    exact hne (List.length_eq_zero.mp hml)
  -- the stream the decoder scans
  rw [decode_message_eq] at hsec
  rw [hstream] at hsec
  have hdend : delimAt (v ++ (DELIM ++ J)) v.length := by
    unfold delimAt
    rw [List.drop_append_eq_append_drop, List.drop_eq_nil_of_le (le_refl _), Nat.sub_self,
      List.drop_zero, List.nil_append, List.take_append_eq_append_take]
    simp [DELIM]
  have hex : ∃ i, delimAt (v ++ (DELIM ++ J)) i := ⟨v.length, hdend⟩
  rw [findPayload_first _ hex] at hsec
  set i₀ := Nat.find hex with hi₀
  have hi0le : i₀ ≤ v.length := Nat.find_min' hex hdend
  -- the scanned payload is a prefix of v
  have htake : (v ++ (DELIM ++ J)).take i₀ = v.take i₀ := by
    rw [List.take_append_eq_append_take]
    have h0 : i₀ - v.length = 0 := by omega
    simp [h0]
  rw [htake] at hsec
  simp only at hsec
  -- the un-shifted payload
  have hulem : ∀ b ∈ u.take i₀, b < 256 := fun b hb => hmlt b (List.take_subset _ _ hb)
  have hcmap : reverseShift (v.take i₀) p2 =
      (u.take i₀).map (fun b => (b + D) % 256) := by
    rw [reverseShift_eq_map p2 (fun b hb => hvlt b (List.take_subset _ _ hb))]
    rw [hvmap, ← List.map_take, map_shift_unshift p1.sum p2.sum hulem]
  rcases Nat.lt_or_ge i₀ v.length with hlt | hge
  · -- early delimiter occurrence inside the shifted payload
    have h7 : i₀ + 7 ≤ v.length := by
      by_contra h7
      exact no_straddle hlt (by omega) (Nat.find_spec hex)
    have hdin : delimAt v i₀ :=
      (delimAt_append_left h7).mp (Nat.find_spec hex)
    have hlenc : ((u.take i₀).map (fun b => (b + D) % 256)).length = i₀ := by
      simp
      omega
    cases hud : utf8Decode (reverseShift (v.take i₀) p2) with
    | some s =>
      rw [hud] at hsec
      simp only [Option.some.injEq] at hsec
      subst hsec
      have henc := utf8Encode_of_utf8Decode hud
      have hlen2 : u.length = i₀ := by
        rw [hu, henc, reverseShift_length]
        simp
        omega
      omega
    | none =>
      rw [hud] at hsec
      simp only [Option.some.injEq] at hsec
      rw [hcmap] at hsec
      -- hsec : (u.take i₀).map shift = m ; infinite descent kills this
      have hm256 : ∀ x ∈ m, x < 256 := by
        intro x hx
        rw [← hsec] at hx
        obtain ⟨b, _, rfl⟩ := List.mem_map.mp hx
        exact Nat.mod_lt _ (by omega)
      have hmlen : m.length = i₀ := by
        rw [← hsec]
        simp
        omega
      have hconstr : ∀ (i c : Nat), m[i]? = some c →
          ∃ b : Nat, u[i]? = some b ∧ c = (b + D) % 256 := by
        intro i c hic
        have hilt : i < m.length := by
          by_contra hge'
          rw [List.getElem?_eq_none (by omega)] at hic
          exact Option.noConfusion hic
        have hgi : ((u.take i₀).map (fun b => (b + D) % 256))[i]? = some c := by
          rw [hsec]; exact hic
        rw [List.getElem?_map, List.getElem?_take_of_lt (by omega)] at hgi
        cases hub : u[i]? with
        | none => rw [hub] at hgi; exact Option.noConfusion hgi
        | some b =>
          rw [hub] at hgi
          simp only [Option.map_some', Option.some.injEq] at hgi
          exact ⟨b, rfl, hgi.symm⟩
      have hhead : ∃ c0, m[0]? = some c0 ∧ 0x80 ≤ c0 := by
        obtain ⟨c0, m', hmm⟩ : ∃ c0 m', m = c0 :: m' := by
          cases m with
          | nil => exact absurd rfl hne
          | cons a b => exact ⟨a, b, rfl⟩
        refine ⟨c0, by rw [hmm]; simp, ?_⟩
        by_contra hlt0
        push_neg at hlt0
        have hu0 : u[0]? = some c0 := by
          rw [hu, hmm, utf8Encode, utf8EncodeChar_one hlt0]
          simp
        obtain ⟨b, hb, hcb⟩ := hconstr 0 c0 (by rw [hmm]; simp)
        rw [hu0] at hb
        have hbc : b = c0 := (Option.some.inj hb).symm
        have hblt : c0 < 256 := hm256 c0 (by rw [hmm]; simp)
        omega
      obtain ⟨h60a, h60b⟩ := delimAt_two_sixties hdin
      rw [hvmap, List.getElem?_map] at h60a h60b
      cases hz1 : u[i₀]? with
      | none => rw [hz1] at h60a; exact Option.noConfusion h60a
      | some z1 =>
        cases hz2 : u[i₀ + 1]? with
        | none => rw [hz2] at h60b; exact Option.noConfusion h60b
        | some z2 =>
          rw [hz1] at h60a
          rw [hz2] at h60b
          simp only [Option.map_some', Option.some.injEq] at h60a h60b
          have hz1lt : z1 < 256 := hmlt z1 (List.getElem?_mem hz1)
          have hz2lt : z2 < 256 := hmlt z2 (List.getElem?_mem hz2)
          have hzeq : z2 = z1 := by omega
          subst hzeq
          exact utf8_no_adj_pair hm256 hhead (by omega) hconstr i₀ z2 hz1 hz2
  · -- the delimiter is found exactly at the end of the payload
    have hi0 : i₀ = v.length := by omega
    rw [hi0, List.take_length] at hsec
    have hcmap2 : reverseShift v p2 = u.map (fun b => (b + D) % 256) := by
      rw [reverseShift_eq_map p2 hvlt, hvmap, map_shift_unshift p1.sum p2.sum hmlt]
    have hheadcontra : u = u.map (fun b => (b + D) % 256) → False := by
      intro huu
      cases hcu : u with
      | nil => exact hmne hcu
      | cons b0 rest =>
        rw [hcu] at huu
        simp only [List.map_cons, List.cons.injEq] at huu
        have hblt : b0 < 256 := hmlt b0 (by rw [hcu]; simp)
        omega
    cases hud : utf8Decode (reverseShift v p2) with
    | some s =>
      rw [hud] at hsec
      simp only [Option.some.injEq] at hsec
      subst hsec
      have henc := utf8Encode_of_utf8Decode hud
      rw [hcmap2, ← hu] at henc
      exact hheadcontra henc
    | none =>
      rw [hud] at hsec
      simp only [Option.some.injEq] at hsec
      rw [hcmap2] at hsec
      -- hsec : u.map shift = m
      have hlen3 : u.length = m.length := by
        rw [← hsec]
        simp
      have hascii : ∀ c ∈ m, c < 0x80 :=
        utf8Encode_length_eq (show (utf8Encode m).length = m.length by rw [← hu]; exact hlen3)
      have hum : u = m := by rw [hu]; exact utf8Encode_ascii hascii
      rw [hum] at hsec
      refine hheadcontra ?_
      rw [hum]
      exact hsec.symm

/-- Witness for C7: the message `"hi"`, passwords `"a"` and `"b"`, on an
8×5 all-zero image, with the produced stego image spelled out. -/
theorem wrong_password_not_original_witness :
    (decode_message ⟨8, 5, embedBits (List.replicate 120 0)
        (bitsOfBytes (applyShift (utf8Encode [104, 105]) [97] ++ DELIM))⟩ [98]).secret ≠
      some [104, 105] :=
  wrong_password_not_original ⟨8, 5, List.replicate 120 0⟩ [104, 105] [97] [98]
    (by decide) (by decide) (by decide) (by decide) (by decide)
    ⟨8, 5, embedBits (List.replicate 120 0)
      (bitsOfBytes (applyShift (utf8Encode [104, 105]) [97] ++ DELIM))⟩
    (by decide)

/-- Counterexample to C7 as stated: for the empty message, encoding with
password `"a"` and decoding with the different-checksum password `"b"`
reports success with secret `""`, which *equals* the original message. -/
theorem wrong_password_not_original_counterexample :
    ([97] : List Nat) ≠ [98] ∧
      ([97] : List Nat).sum % 256 ≠ ([98] : List Nat).sum % 256 ∧
      ∃ out, (encode_message ⟨5, 4, List.replicate 60 0⟩ [] [97]).output = some out ∧
        (decode_message out [98]).success = true ∧
        (decode_message out [98]).secret = some [] := by
  refine ⟨by decide, by decide,
    ⟨5, 4, embedBits (List.replicate 60 0)
      (bitsOfBytes (applyShift (utf8Encode []) [97] ++ DELIM))⟩, ?_, ?_, ?_⟩
  · decide
  · decide
  · decide

end Stego
